import Mathlib

/-!
Verification of the LitReading preprocessing core (litreading/preprocessor.py).

The development shallowly embeds the three algorithmic pieces of the
`LCSPreprocessor` class:

* `longest_common_subsequence` — builds a differ list for two input values
  (raising a TypeError when an input is not a string) and applies the
  tail-trim policy that pops trailing lines sharing the last line's tag;
* `get_words_count` — the single left-to-right classification pass over the
  differ list producing the correct/added/removed/replaced counts and the
  internal error-pair lists;
* `get_words_length_stats` / `compute_numerical_features` — per-record word
  statistics and the per-minute rate features.

Python exceptions (TypeError from the isinstance guard, IndexError from
out-of-bounds list or string indexing) are modelled with `Except PyErr`.
Python machine floats are idealised as exact rationals, and the square root
inside numpy's standard deviation as `Real.sqrt`.

The call `difflib.Differ().compare` is external-library code; following the
specification (sections 4.1 and 9) it is modelled from the spec as a classic
dynamic-programming LCS diff emitting two-character-prefixed lines
(prefix tag, then one space, then the token), without ambiguous-hint lines.
Everything else is translated directly from the repository source.
-/

namespace LitReading

/-- Python exception classes that the embedded code can raise. -/
inductive PyErr where
  | typeError
  | indexError
deriving DecidableEq, Repr

/-- A dynamically typed Python value, as far as the isinstance guard of
`longest_common_subsequence` needs to distinguish: a string, or one of the
non-string shapes a dataframe cell could hold. -/
inductive PyObj where
  | str (s : String)
  | int (n : Int)
  | float (q : ℚ)
  | pyNone
deriving DecidableEq

/-- Whether a `PyObj` is a string (Python `isinstance(x, str)`). -/
def PyObj.isStr : PyObj → Bool
  | .str _ => true
  | _ => false

/-- Python `w[0]`: the first character of a string, raising IndexError on the
empty string. -/
def headChar (w : String) : Except PyErr Char :=
  match w.data with
  | [] => Except.error PyErr.indexError
  | c :: _ => Except.ok c

/-- The tag character of a differ line, when the line is non-empty. -/
def tagOf (w : String) : Option Char := w.data.head?

/-- Split a character list at every character satisfying `p`, keeping empty
chunks — the semantics of Python `s.split(sep)` with an explicit separator. -/
def splitOnPred (p : Char → Bool) : List Char → List (List Char)
  | [] => [[]]
  | c :: cs =>
    if p c then [] :: splitOnPred p cs
    else
      match splitOnPred p cs with
      | [] => [[c]]
      | w :: ws => (c :: w) :: ws

/-- Python `s.split(sep)` for a one-character separator: empty chunks are
kept, and the result is never the empty list. -/
def pySplitOn (sep : Char) (s : String) : List String :=
  (splitOnPred (fun c => c == sep) s.data).map String.mk

/-- Python `s.split(" ")`, the default separator used by the preprocessor. -/
def pySplit (s : String) : List String := pySplitOn ' ' s

/-- Python `s.split()` (no argument): split on whitespace runs, dropping the
empty chunks. -/
def pySplitWs (s : String) : List String :=
  ((splitOnPred (fun c => c.isWhitespace) s.data).map String.mk).filter
    (fun w => w ≠ "")

/-- Replace every non-overlapping occurrence of `pat` by `rep`, scanning left
to right — the semantics of Python `s.replace(pat, rep)` for non-empty `pat`.
The fuel argument only bounds the recursion (each step strictly shortens the
scanned list, so any fuel at least the list length is adequate); it keeps the
recursion structural. -/
def pyReplaceF (pat rep : List Char) : Nat → List Char → List Char
  | _, [] => []
  | 0, l => l
  | fuel + 1, c :: cs =>
    if (c :: cs).take pat.length = pat ∧ pat ≠ [] then
      rep ++ pyReplaceF pat rep fuel ((c :: cs).drop pat.length)
    else
      c :: pyReplaceF pat rep fuel cs

/-- Python `s.replace(pat, rep)`. -/
def pyReplace (s pat rep : String) : String :=
  String.mk (pyReplaceF pat.data rep.data s.data.length s.data)

/-- Length of a longest common subsequence of two token lists (classic
recursion). Supports the tie-break choice of the modelled differ. The fuel
argument keeps the recursion structural; each recursive call shrinks the
combined length of the two lists, so any fuel at least that sum is adequate
and the exhausted-fuel branch is unreachable. -/
def lcsLenF : Nat → List String → List String → Nat
  | _, [], _ => 0
  | _, _ :: _, [] => 0
  | 0, _ :: _, _ :: _ => 0
  | fuel + 1, a :: as0, b :: bs0 =>
    if a = b then lcsLenF fuel as0 bs0 + 1
    else max (lcsLenF fuel as0 (b :: bs0)) (lcsLenF fuel (a :: as0) bs0)

/-- Length of a longest common subsequence, run with adequate fuel. -/
def lcsLen (xs ys : List String) : Nat := lcsLenF (xs.length + ys.length) xs ys

/-- Modelled from the spec: `difflib.Differ().compare`, the external stdlib
differ, replaced per spec sections 4.1 and 9 by an LCS-based diff that emits
one line per token — a Match line (prefix two spaces) for tokens kept on both
sides, a Delete line (prefix minus and space) for tokens of the first
sequence only, and an Insert line (prefix plus and space) for tokens of the
second sequence only — with deletions emitted before insertions at a
replacement point and no ambiguous-hint lines. -/
def differF : Nat → List String → List String → List String
  | _, [], [] => []
  | 0, _, _ => []
  | fuel + 1, [], b :: bs0 => ("+ " ++ b) :: differF fuel [] bs0
  | fuel + 1, a :: as0, [] => ("- " ++ a) :: differF fuel as0 []
  | fuel + 1, a :: as0, b :: bs0 =>
    if a = b then ("  " ++ a) :: differF fuel as0 bs0
    else if lcsLen (a :: as0) bs0 ≤ lcsLen as0 (b :: bs0) then
      ("- " ++ a) :: differF fuel as0 (b :: bs0)
    else
      ("+ " ++ b) :: differF fuel (a :: as0) bs0

/-- The modelled differ, run with adequate fuel (the combined length of the
two token lists; every recursive call shrinks that sum, so the
exhausted-fuel branch is unreachable). -/
def differ (xs ys : List String) : List String :=
  differF (xs.length + ys.length) xs ys

/-- The pop loop of the tail trim, acting on the reversed differ list:
Python `while differ_list[-1][0] == to_be_removed and len(differ_list) >= 1:
differ_list.pop()`. Popping the last element of the list is modelled as
dropping the head of its reversal; indexing `[-1]` into an exhausted list, or
`[0]` into an empty line, raises IndexError. -/
def popLoopRev (t : Char) : List String → Except PyErr (List String)
  | [] => Except.error PyErr.indexError
  | w :: rest =>
    match headChar w with
    | Except.error e => Except.error e
    | Except.ok c =>
      if c = t then popLoopRev t rest else Except.ok (w :: rest)

/-- The tail-trim policy of `longest_common_subsequence` (preprocessor.py
lines 236-243): read the tag of the last line; if it is not the Match tag,
repeatedly pop the last line while it carries that same tag. -/
def trimDiff (dl : List String) : Except PyErr (List String) :=
  match dl.getLast? with
  | none => Except.error PyErr.indexError
  | some w =>
    match headChar w with
    | Except.error e => Except.error e
    | Except.ok t =>
      if t = ' ' then Except.ok dl
      else
        match popLoopRev t dl.reverse with
        | Except.error e => Except.error e
        | Except.ok r => Except.ok r.reverse

/-- `LCSPreprocessor.longest_common_subsequence`: raise TypeError unless both
inputs are strings, split both on the separator, run the differ, then apply
the tail trim. -/
def longest_common_subsequence (str_a str_b : PyObj) (split_car : Char := ' ') :
    Except PyErr (List String) :=
  match str_a, str_b with
  | .str a, .str b => trimDiff (differ (pySplitOn split_car a) (pySplitOn split_car b))
  | _, _ => Except.error PyErr.typeError

/-- The running state of the classification loop of `get_words_count`:
the three direct counters, the two error lists of `errors_dict`
(`errPrompt` is the list under the prompt-text key, `errTranscript` the list
under the transcript key), and the `skip_next` counter. -/
structure GwcState where
  correct : Nat
  added : Nat
  removed : Nat
  errPrompt : List String
  errTranscript : List String
  skipNext : Nat
deriving DecidableEq, Repr

/-- The initial classification state. -/
def initGwcState : GwcState :=
  { correct := 0, added := 0, removed := 0, errPrompt := [], errTranscript := [],
    skipNext := 0 }

/-- The body of the hint-skipping while loop, walking the suffix of the
differ list that starts at position `i + j`: stop (returning the current
`j`) at the end of the list or at a non-hint line, advance over hint lines,
and raise IndexError on an empty line. -/
def skipHintsGo : List String → Nat → Except PyErr Nat
  | [], j => Except.ok j
  | w :: rem, j =>
    match headChar w with
    | Except.error e => Except.error e
    | Except.ok c => if c = '?' then skipHintsGo rem (j + 1) else Except.ok j

/-- The look-ahead of `get_words_count`: Python
`while i + j < n and differ_list[i + j][0] == "?": j += 1`, started at
`j = 1`. Raises IndexError when a probed line is the empty string. -/
def skipHints (dl : List String) (i j : Nat) : Except PyErr Nat :=
  skipHintsGo (dl.drop (i + j)) j

/-- One iteration of the `for i, word in enumerate(differ_list)` loop of
`get_words_count` (preprocessor.py lines 262-285), acting on the state:
skip the word when `skip_next > 0`; count a Match; otherwise, only when
`i < n - 2`, count the singleton as added or removed, look ahead past hint
lines, and record a replacement pair when the current line and the looked-up
line are an Insert/Delete pair in either order, setting `skip_next` so the
paired line is skipped. -/
def gwcStep (dl : List String) (i : Nat) (st : GwcState) : Except PyErr GwcState :=
  if st.skipNext > 0 then Except.ok { st with skipNext := st.skipNext - 1 }
  else
    match dl[i]? with
    | none => Except.ok st
    | some word =>
      match headChar word with
      | Except.error e => Except.error e
      | Except.ok c =>
        if c = ' ' then Except.ok { st with correct := st.correct + 1 }
        else if i + 2 < dl.length then
          let st1 :=
            if c = '+' then { st with added := st.added + 1 }
            else if c = '-' then { st with removed := st.removed + 1 }
            else st
          match skipHints dl i 1 with
          | Except.error e => Except.error e
          | Except.ok j =>
            match dl[i + j]? with
            | none => Except.error PyErr.indexError
            | some w2 =>
              match headChar w2 with
              | Except.error e => Except.error e
              | Except.ok c2 =>
                if c = '+' ∧ c2 = '-' then
                  Except.ok { st1 with
                    skipNext := j,
                    errPrompt := st1.errPrompt ++ [pyReplace word "+ " ""],
                    errTranscript := st1.errTranscript ++ [pyReplace w2 "- " ""] }
                else if c = '-' ∧ c2 = '+' then
                  Except.ok { st1 with
                    skipNext := j,
                    errPrompt := st1.errPrompt ++ [pyReplace word "- " ""],
                    errTranscript := st1.errTranscript ++ [pyReplace w2 "+ " ""] }
                else Except.ok { st1 with skipNext := 0 }
        else Except.ok st

/-- The classification loop of `for i, word in enumerate(differ_list)`: one
iteration per element of the enumerated suffix `rem`, with `i` tracking the
current position inside the full list `dl`. -/
def gwcLoop (dl : List String) : List String → Nat → GwcState → Except PyErr GwcState
  | [], _, st => Except.ok st
  | _ :: rem, i, st =>
    match gwcStep dl i st with
    | Except.error e => Except.error e
    | Except.ok st2 => gwcLoop dl rem (i + 1) st2

/-- The full classification pass of `get_words_count`, returning the final
loop state (counters and error lists). -/
def gwcRun (dl : List String) : Except PyErr GwcState := gwcLoop dl dl 0 initGwcState

/-- The dictionary returned by `get_words_count`: the three counters plus
`replaced`, defined as the length of the prompt-side error list. -/
structure WordsCount where
  correct : Nat
  added : Nat
  removed : Nat
  replaced : Nat
deriving DecidableEq, Repr

/-- Package the final classification state into the returned counts,
with `replaced := len(errors_dict[PROMPT_TEXT_COL])`. -/
def mkWordsCount (st : GwcState) : WordsCount :=
  { correct := st.correct, added := st.added, removed := st.removed,
    replaced := st.errPrompt.length }

/-- `LCSPreprocessor.get_words_count` (preprocessor.py lines 246-293). -/
def get_words_count (dl : List String) : Except PyErr WordsCount :=
  (gwcRun dl).map mkWordsCount

/-- The reference-side tokens available in a differ list: the tokens carried
by its Delete lines. Used to express that an error pair's first component
should originate from the reference sequence. -/
def refTokens (dl : List String) : List String :=
  dl.filterMap fun w =>
    if w.data.head? = some '-' then some (pyReplace w "- " "") else none

/-- Arithmetic mean of a list of natural numbers, as numpy computes it
(idealised as an exact rational). -/
def npMean (l : List Nat) : ℚ := (l.sum : ℚ) / (l.length : ℚ)

/-- Population variance of a list of natural numbers, as numpy computes it
inside `np.std` (idealised as an exact rational). -/
def npVar (l : List Nat) : ℚ :=
  ((l.map fun x => ((x : ℚ) - npMean l) ^ 2).sum) / (l.length : ℚ)

/-- Population standard deviation `np.std`, the square root of the
population variance. -/
noncomputable def npStd (l : List Nat) : ℝ := Real.sqrt (npVar l)

/-- `LCSPreprocessor.get_words_length_stats` (preprocessor.py lines 296-313):
split the string on the separator, return `(0, 0)` for an empty token list
(a guard that is unreachable, since Python split never returns an empty
list), otherwise the mean and standard deviation of the token lengths. -/
noncomputable def get_words_length_stats (s : String) (sep : Char := ' ') : ℚ × ℝ :=
  let toks := pySplitOn sep s
  if toks.length = 0 then (0, 0)
  else
    let lens := toks.map String.length
    (npMean lens, npStd lens)

/-- One row of the feature table built by `compute_numerical_features`:
the five per-minute rate columns produced by dividing the raw counts by
`duration / 60` and suffixing the names, followed by the word-length
statistics of the prompt and transcript columns (appended after the
division, hence not rate-scaled). -/
structure Features where
  correct_words_pm : ℚ
  added_words_pm : ℚ
  removed_words_pm : ℚ
  replaced_words_pm : ℚ
  asr_word_count_pm : ℚ
  prompt_word_length_avg : ℚ
  prompt_word_length_std : ℝ
  asr_word_length_avg : ℚ
  asr_word_length_std : ℝ

/-- Assemble the feature row from the classification counts, the transcript
word count, the two text fields and the duration, mirroring the column
arithmetic of `compute_numerical_features`: every count column is divided by
`duration / 60`, the length statistics are concatenated unscaled. -/
noncomputable def mkFeatures (wc : WordsCount) (asrCount : Nat)
    (prompt asr : String) (duration : ℚ) : Features :=
  let dm : ℚ := duration / 60
  let ps := get_words_length_stats prompt
  let ts := get_words_length_stats asr
  { correct_words_pm := (wc.correct : ℚ) / dm
    added_words_pm := (wc.added : ℚ) / dm
    removed_words_pm := (wc.removed : ℚ) / dm
    replaced_words_pm := (wc.replaced : ℚ) / dm
    asr_word_count_pm := (asrCount : ℚ) / dm
    prompt_word_length_avg := ps.1
    prompt_word_length_std := ps.2
    asr_word_length_avg := ts.1
    asr_word_length_std := ts.2 }

/-- `LCSPreprocessor.compute_numerical_features` (preprocessor.py lines
159-191), restricted to a single record: build the differ list of the prompt
and transcript fields, classify it, count the transcript words with a
no-argument split, and assemble the rate and length-statistics features. -/
noncomputable def compute_numerical_features (prompt asr : String)
    (duration : ℚ) : Except PyErr Features :=
  match longest_common_subsequence (PyObj.str prompt) (PyObj.str asr) with
  | Except.error e => Except.error e
  | Except.ok dl =>
    match get_words_count dl with
    | Except.error e => Except.error e
    | Except.ok wc =>
      Except.ok (mkFeatures wc (pySplitWs asr).length prompt asr duration)

/-- A Match line starts with a space. -/
theorem head_data_match (a : String) : (("  " : String) ++ a).data.head? = some ' ' := by
  cases a
  rfl

/-- A Delete line starts with a minus. -/
theorem head_data_minus (a : String) : (("- " : String) ++ a).data.head? = some '-' := by
  cases a
  rfl

/-- An Insert line starts with a plus. -/
theorem head_data_plus (a : String) : (("+ " : String) ++ a).data.head? = some '+' := by
  cases a
  rfl

theorem differF_irrel : ∀ (f1 : Nat) (xs ys : List String),
    xs.length + ys.length ≤ f1 → ∀ (f2 : Nat), xs.length + ys.length ≤ f2 →
    differF f1 xs ys = differF f2 xs ys := by
  intro f1
  induction f1 with
  | zero =>
    intro xs ys h f2 h2
    cases xs with
    | nil =>
      cases ys with
      | nil => cases f2 <;> rfl
      | cons b bs0 => simp at h
    | cons a as0 => simp at h
  | succ g ih =>
    intro xs ys h f2 h2
    cases xs with
    | nil =>
      cases ys with
      | nil => cases f2 <;> rfl
      | cons b bs0 =>
        obtain ⟨g2, rfl⟩ : ∃ g2, f2 = g2 + 1 := by
          cases f2 with
          | zero => simp at h2
          | succ g2 => exact ⟨g2, rfl⟩
        simp only [differF]
        simp only [List.length_cons, List.length_nil] at h h2
        rw [ih [] bs0 (by simp only [List.length_nil, List.length_cons]; omega) g2
          (by simp only [List.length_nil, List.length_cons]; omega)]
    | cons a as0 =>
      cases ys with
      | nil =>
        obtain ⟨g2, rfl⟩ : ∃ g2, f2 = g2 + 1 := by
          cases f2 with
          | zero => simp at h2
          | succ g2 => exact ⟨g2, rfl⟩
        simp only [differF]
        simp only [List.length_cons, List.length_nil] at h h2
        rw [ih as0 [] (by simp only [List.length_nil, List.length_cons]; omega) g2
          (by simp only [List.length_nil, List.length_cons]; omega)]
      | cons b bs0 =>
        obtain ⟨g2, rfl⟩ : ∃ g2, f2 = g2 + 1 := by
          cases f2 with
          | zero => simp at h2
          | succ g2 => exact ⟨g2, rfl⟩
        simp only [differF]
        simp only [List.length_cons] at h h2
        by_cases hab : a = b
        · rw [if_pos hab, if_pos hab, ih as0 bs0 (by omega) g2 (by omega)]
        · rw [if_neg hab, if_neg hab]
          by_cases hle : lcsLen (a :: as0) bs0 ≤ lcsLen as0 (b :: bs0)
          · rw [if_pos hle, if_pos hle,
              ih as0 (b :: bs0) (by simp only [List.length_cons]; omega) g2
                (by simp only [List.length_cons]; omega)]
          · rw [if_neg hle, if_neg hle,
              ih (a :: as0) bs0 (by simp only [List.length_cons]; omega) g2
                (by simp only [List.length_cons]; omega)]

theorem differ_nil_nil : differ [] [] = [] := rfl

theorem differ_nil_cons (b : String) (bs : List String) :
    differ [] (b :: bs) = ("+ " ++ b) :: differ [] bs := by
  unfold differ
  rw [differF_irrel (List.length ([] : List String) + (b :: bs).length) [] (b :: bs)
    (le_refl _) (bs.length + 1) (by simp)]
  simp only [differF]
  rw [differF_irrel bs.length [] bs (by simp)
    (List.length ([] : List String) + bs.length) (by simp)]

theorem differ_cons_nil (a : String) (as : List String) :
    differ (a :: as) [] = ("- " ++ a) :: differ as [] := by
  unfold differ
  rw [differF_irrel ((a :: as).length + List.length ([] : List String)) (a :: as) []
    (le_refl _) (as.length + 1) (by simp)]
  simp only [differF]
  rw [differF_irrel as.length as [] (by simp)
    (as.length + List.length ([] : List String)) (by simp)]

theorem differ_cons_cons_eq (as : List String) (b : String) (bs : List String) :
    differ (b :: as) (b :: bs) = ("  " ++ b) :: differ as bs := by
  unfold differ
  rw [differF_irrel ((b :: as).length + (b :: bs).length) (b :: as) (b :: bs)
    (le_refl _) (as.length + bs.length + 1 + 1) (by simp; omega)]
  simp only [differF]
  simp only [if_pos trivial, eq_self_iff_true, if_true]
  rw [differF_irrel (as.length + bs.length + 1) as bs (by omega)
    (as.length + bs.length) (le_refl _)]

theorem differ_cons_cons_minus (a : String) (as : List String) (b : String) (bs : List String)
    (hne : a ≠ b) (hle : lcsLen (a :: as) bs ≤ lcsLen as (b :: bs)) :
    differ (a :: as) (b :: bs) = ("- " ++ a) :: differ as (b :: bs) := by
  unfold differ
  rw [differF_irrel ((a :: as).length + (b :: bs).length) (a :: as) (b :: bs)
    (le_refl _) ((as.length + (b :: bs).length) + 1) (by simp; omega)]
  simp only [differF]
  rw [if_neg hne, if_pos hle]

theorem differ_cons_cons_plus (a : String) (as : List String) (b : String) (bs : List String)
    (hne : a ≠ b) (hgt : ¬ lcsLen (a :: as) bs ≤ lcsLen as (b :: bs)) :
    differ (a :: as) (b :: bs) = ("+ " ++ b) :: differ (a :: as) bs := by
  unfold differ
  rw [differF_irrel ((a :: as).length + (b :: bs).length) (a :: as) (b :: bs)
    (le_refl _) (((a :: as).length + bs.length) + 1) (by simp; omega)]
  simp only [differF]
  rw [if_neg hne, if_neg hgt]

/-- Diffing a sequence against itself yields one Match line per token. -/
theorem differ_self (ts : List String) : differ ts ts = ts.map (fun w => "  " ++ w) := by
  induction ts with
  | nil => simp [differ_nil_nil]
  | cons t ts ih => simp [differ_cons_cons_eq, ih]

theorem differ_tags_aux : ∀ (n : Nat) (xs ys : List String),
    xs.length + ys.length ≤ n →
    ∀ w ∈ differ xs ys,
      w.data.head? = some ' ' ∨ w.data.head? = some '-' ∨ w.data.head? = some '+' := by
  intro n
  induction n with
  | zero =>
    intro xs ys h w hw
    cases xs with
    | nil =>
      cases ys with
      | nil =>
        rw [differ_nil_nil] at hw
        simp at hw
      | cons b bs0 => simp at h
    | cons a as0 => simp at h
  | succ g ih =>
    intro xs ys h w hw
    cases xs with
    | nil =>
      cases ys with
      | nil =>
        rw [differ_nil_nil] at hw
        simp at hw
      | cons b bs0 =>
        rw [differ_nil_cons] at hw
        rcases List.mem_cons.mp hw with h1 | h1
        · subst h1
          exact Or.inr (Or.inr (head_data_plus b))
        · exact ih [] bs0 (by simp at h ⊢; omega) w h1
    | cons a as0 =>
      cases ys with
      | nil =>
        rw [differ_cons_nil] at hw
        rcases List.mem_cons.mp hw with h1 | h1
        · subst h1
          exact Or.inr (Or.inl (head_data_minus a))
        · exact ih as0 [] (by simp at h ⊢; omega) w h1
      | cons b bs0 =>
        by_cases hab : a = b
        · subst hab
          rw [differ_cons_cons_eq] at hw
          rcases List.mem_cons.mp hw with h1 | h1
          · subst h1
            exact Or.inl (head_data_match a)
          · exact ih as0 bs0 (by simp at h ⊢; omega) w h1
        · by_cases hle : lcsLen (a :: as0) bs0 ≤ lcsLen as0 (b :: bs0)
          · rw [differ_cons_cons_minus a as0 b bs0 hab hle] at hw
            rcases List.mem_cons.mp hw with h1 | h1
            · subst h1
              exact Or.inr (Or.inl (head_data_minus a))
            · exact ih as0 (b :: bs0) (by simp at h ⊢; omega) w h1
          · rw [differ_cons_cons_plus a as0 b bs0 hab hle] at hw
            rcases List.mem_cons.mp hw with h1 | h1
            · subst h1
              exact Or.inr (Or.inr (head_data_plus b))
            · exact ih (a :: as0) bs0 (by simp at h ⊢; omega) w h1

/-- Every differ line carries the Match, Delete or Insert tag. -/
theorem differ_tags (xs ys : List String) :
    ∀ w ∈ differ xs ys,
      w.data.head? = some ' ' ∨ w.data.head? = some '-' ∨ w.data.head? = some '+' :=
  differ_tags_aux (xs.length + ys.length) xs ys (le_refl _)

theorem differ_left_mem_aux : ∀ (n : Nat) (xs ys : List String),
    xs.length + ys.length ≤ n → xs ≠ [] →
    ∃ w ∈ differ xs ys, w.data.head? = some ' ' ∨ w.data.head? = some '-' := by
  intro n
  induction n with
  | zero =>
    intro xs ys h hx
    cases xs with
    | nil => exact absurd rfl hx
    | cons a as0 => simp at h
  | succ g ih =>
    intro xs ys h hx
    cases xs with
    | nil => exact absurd rfl hx
    | cons a as0 =>
      cases ys with
      | nil =>
        refine ⟨"- " ++ a, ?_, Or.inr (head_data_minus a)⟩
        rw [differ_cons_nil]
        exact List.mem_cons_self _ _
      | cons b bs0 =>
        by_cases hab : a = b
        · subst hab
          refine ⟨"  " ++ a, ?_, Or.inl (head_data_match a)⟩
          rw [differ_cons_cons_eq]
          exact List.mem_cons_self _ _
        · by_cases hle : lcsLen (a :: as0) bs0 ≤ lcsLen as0 (b :: bs0)
          · refine ⟨"- " ++ a, ?_, Or.inr (head_data_minus a)⟩
            rw [differ_cons_cons_minus a as0 b bs0 hab hle]
            exact List.mem_cons_self _ _
          · obtain ⟨w, hw, htag⟩ := ih (a :: as0) bs0 (by simp at h ⊢; omega) (by simp)
            refine ⟨w, ?_, htag⟩
            rw [differ_cons_cons_plus a as0 b bs0 hab hle]
            exact List.mem_cons_of_mem _ hw

/-- When the left sequence is non-empty, the diff contains a line that came
from it: a Match or a Delete line. -/
theorem differ_left_mem (xs ys : List String) (hx : xs ≠ []) :
    ∃ w ∈ differ xs ys, w.data.head? = some ' ' ∨ w.data.head? = some '-' :=
  differ_left_mem_aux (xs.length + ys.length) xs ys (le_refl _) hx

theorem differ_right_mem_aux : ∀ (n : Nat) (xs ys : List String),
    xs.length + ys.length ≤ n → ys ≠ [] →
    ∃ w ∈ differ xs ys, w.data.head? = some ' ' ∨ w.data.head? = some '+' := by
  intro n
  induction n with
  | zero =>
    intro xs ys h hy
    cases ys with
    | nil => exact absurd rfl hy
    | cons b bs0 => simp at h
  | succ g ih =>
    intro xs ys h hy
    cases ys with
    | nil => exact absurd rfl hy
    | cons b bs0 =>
      cases xs with
      | nil =>
        refine ⟨"+ " ++ b, ?_, Or.inr (head_data_plus b)⟩
        rw [differ_nil_cons]
        exact List.mem_cons_self _ _
      | cons a as0 =>
        by_cases hab : a = b
        · subst hab
          refine ⟨"  " ++ a, ?_, Or.inl (head_data_match a)⟩
          rw [differ_cons_cons_eq]
          exact List.mem_cons_self _ _
        · by_cases hle : lcsLen (a :: as0) bs0 ≤ lcsLen as0 (b :: bs0)
          · obtain ⟨w, hw, htag⟩ := ih as0 (b :: bs0) (by simp at h ⊢; omega) (by simp)
            refine ⟨w, ?_, htag⟩
            rw [differ_cons_cons_minus a as0 b bs0 hab hle]
            exact List.mem_cons_of_mem _ hw
          · refine ⟨"+ " ++ b, ?_, Or.inr (head_data_plus b)⟩
            rw [differ_cons_cons_plus a as0 b bs0 hab hle]
            exact List.mem_cons_self _ _

/-- When the right sequence is non-empty, the diff contains a line that came
from it: a Match or an Insert line. -/
theorem differ_right_mem (xs ys : List String) (hy : ys ≠ []) :
    ∃ w ∈ differ xs ys, w.data.head? = some ' ' ∨ w.data.head? = some '+' :=
  differ_right_mem_aux (xs.length + ys.length) xs ys (le_refl _) hy

/-- The chunk list produced by splitting is never empty. -/
theorem splitOnPred_ne_nil (p : Char → Bool) (l : List Char) : splitOnPred p l ≠ [] := by
  induction l with
  | nil => simp [splitOnPred]
  | cons c cs ih =>
    rw [splitOnPred]
    split
    · simp
    · split
      · simp
      · simp

/-- Python split with an explicit separator never returns an empty list. -/
theorem pySplitOn_ne_nil (sep : Char) (s : String) : pySplitOn sep s ≠ [] := by
  unfold pySplitOn
  simp [splitOnPred_ne_nil]

end LitReading

namespace LitReading

theorem gwcStep_skip (dl : List String) (i : Nat) (st : GwcState) (h : 0 < st.skipNext) :
    gwcStep dl i st = Except.ok { st with skipNext := st.skipNext - 1 } := by
  unfold gwcStep
  rw [if_pos h]

theorem gwcStep_none (dl : List String) (i : Nat) (st : GwcState) (h0 : st.skipNext = 0)
    (h : dl[i]? = none) : gwcStep dl i st = Except.ok st := by
  simp [gwcStep, h0, h]

theorem gwcStep_match (dl : List String) (i : Nat) (st : GwcState) (w : String)
    (h0 : st.skipNext = 0) (hw : dl[i]? = some w) (hhead : w.data.head? = some ' ') :
    gwcStep dl i st = Except.ok { st with correct := st.correct + 1 } := by
  obtain ⟨cs, hdata⟩ : ∃ cs, w.data = ' ' :: cs := by
    cases hd : w.data with
    | nil => rw [hd] at hhead; simp at hhead
    | cons c cs =>
      rw [hd] at hhead
      simp at hhead
      exact ⟨cs, by rw [hhead]⟩
  simp [gwcStep, h0, hw, headChar, hdata]

theorem gwcStep_tail (dl : List String) (i : Nat) (st : GwcState) (w : String) (c : Char)
    (h0 : st.skipNext = 0) (hw : dl[i]? = some w) (hhead : w.data.head? = some c)
    (hc : c ≠ ' ') (hi : ¬ i + 2 < dl.length) :
    gwcStep dl i st = Except.ok st := by
  obtain ⟨cs, hdata⟩ : ∃ cs, w.data = c :: cs := by
    cases hd : w.data with
    | nil => rw [hd] at hhead; simp at hhead
    | cons c2 cs =>
      rw [hd] at hhead
      simp at hhead
      exact ⟨cs, by rw [hhead]⟩
  simp [gwcStep, h0, hw, headChar, hdata, hc, hi]

theorem gwcStep_pair_mp (dl : List String) (i j : Nat) (st : GwcState) (w w2 : String)
    (h0 : st.skipNext = 0) (hw : dl[i]? = some w) (hhead : w.data.head? = some '-')
    (hi : i + 2 < dl.length) (hj : skipHints dl i 1 = Except.ok j)
    (hw2 : dl[i + j]? = some w2) (hhead2 : w2.data.head? = some '+') :
    gwcStep dl i st = Except.ok
      { st with
        removed := st.removed + 1,
        errPrompt := st.errPrompt ++ [pyReplace w "- " ""],
        errTranscript := st.errTranscript ++ [pyReplace w2 "+ " ""],
        skipNext := j } := by
  obtain ⟨cs, hdata⟩ : ∃ cs, w.data = '-' :: cs := by
    cases hd : w.data with
    | nil => rw [hd] at hhead; simp at hhead
    | cons c2 cs =>
      rw [hd] at hhead
      simp at hhead
      exact ⟨cs, by rw [hhead]⟩
  obtain ⟨cs2, hdata2⟩ : ∃ cs2, w2.data = '+' :: cs2 := by
    cases hd : w2.data with
    | nil => rw [hd] at hhead2; simp at hhead2
    | cons c2 cs2 =>
      rw [hd] at hhead2
      simp at hhead2
      exact ⟨cs2, by rw [hhead2]⟩
  simp [gwcStep, h0, hw, headChar, hdata, hi, hj, hw2, hdata2]

theorem gwcStep_pair_pm (dl : List String) (i j : Nat) (st : GwcState) (w w2 : String)
    (h0 : st.skipNext = 0) (hw : dl[i]? = some w) (hhead : w.data.head? = some '+')
    (hi : i + 2 < dl.length) (hj : skipHints dl i 1 = Except.ok j)
    (hw2 : dl[i + j]? = some w2) (hhead2 : w2.data.head? = some '-') :
    gwcStep dl i st = Except.ok
      { st with
        added := st.added + 1,
        errPrompt := st.errPrompt ++ [pyReplace w "+ " ""],
        errTranscript := st.errTranscript ++ [pyReplace w2 "- " ""],
        skipNext := j } := by
  obtain ⟨cs, hdata⟩ : ∃ cs, w.data = '+' :: cs := by
    cases hd : w.data with
    | nil => rw [hd] at hhead; simp at hhead
    | cons c2 cs =>
      rw [hd] at hhead
      simp at hhead
      exact ⟨cs, by rw [hhead]⟩
  obtain ⟨cs2, hdata2⟩ : ∃ cs2, w2.data = '-' :: cs2 := by
    cases hd : w2.data with
    | nil => rw [hd] at hhead2; simp at hhead2
    | cons c2 cs2 =>
      rw [hd] at hhead2
      simp at hhead2
      exact ⟨cs2, by rw [hhead2]⟩
  simp [gwcStep, h0, hw, headChar, hdata, hi, hj, hw2, hdata2]

theorem gwcStep_single (dl : List String) (i j : Nat) (st : GwcState) (w w2 : String)
    (c c2 : Char)
    (h0 : st.skipNext = 0) (hw : dl[i]? = some w) (hhead : w.data.head? = some c)
    (hc : c ≠ ' ') (hi : i + 2 < dl.length) (hj : skipHints dl i 1 = Except.ok j)
    (hw2 : dl[i + j]? = some w2) (hhead2 : w2.data.head? = some c2)
    (hnpm : ¬ (c = '+' ∧ c2 = '-')) (hnmp : ¬ (c = '-' ∧ c2 = '+')) :
    gwcStep dl i st = Except.ok
      (if c = '+' then { st with added := st.added + 1 }
       else if c = '-' then { st with removed := st.removed + 1 }
       else st) := by
  obtain ⟨cs, hdata⟩ : ∃ cs, w.data = c :: cs := by
    cases hd : w.data with
    | nil => rw [hd] at hhead; simp at hhead
    | cons c3 cs =>
      rw [hd] at hhead
      simp at hhead
      exact ⟨cs, by rw [hhead]⟩
  obtain ⟨cs2, hdata2⟩ : ∃ cs2, w2.data = c2 :: cs2 := by
    cases hd : w2.data with
    | nil => rw [hd] at hhead2; simp at hhead2
    | cons c3 cs2 =>
      rw [hd] at hhead2
      simp at hhead2
      exact ⟨cs2, by rw [hhead2]⟩
  have hs : gwcStep dl i st = Except.ok
      (if c = '+' then { st with added := st.added + 1, skipNext := 0 }
       else if c = '-' then { st with removed := st.removed + 1, skipNext := 0 }
       else { st with skipNext := 0 }) := by
    simp only [gwcStep, h0, hw, headChar, hdata, hdata2, hi, hj, hw2]
    rw [if_neg (by omega : ¬ (0 : Nat) > 0)]
    simp only [if_neg hc, if_pos hi, hnpm, hnmp, if_false]
    split_ifs <;> rfl
  rw [hs]
  cases st with
  | mk a b cc d e f =>
    simp only at h0
    subst h0
    rfl

end LitReading

namespace LitReading

theorem skipHintsGo_ge (rem : List String) : ∀ (j0 j : Nat),
    skipHintsGo rem j0 = Except.ok j → j0 ≤ j := by
  induction rem with
  | nil =>
    intro j0 j h
    cases h
    omega
  | cons w rem ih =>
    intro j0 j h
    unfold skipHintsGo at h
    split at h
    · cases h
    · rename_i c hC
      by_cases hq : c = '?'
      · rw [if_pos hq] at h
        have := ih (j0 + 1) j h
        omega
      · rw [if_neg hq] at h
        cases h
        omega

theorem skipHints_ge (dl : List String) (i j0 j : Nat)
    (h : skipHints dl i j0 = Except.ok j) : j0 ≤ j :=
  skipHintsGo_ge (dl.drop (i + j0)) j0 j h

theorem gwcStep_delta (dl : List String) (i : Nat) (st st2 : GwcState)
    (h : gwcStep dl i st = Except.ok st2) :
    (0 < st.skipNext ∧ st2.correct = st.correct ∧ st2.added = st.added ∧
      st2.removed = st.removed ∧ st2.errPrompt = st.errPrompt ∧
      st2.errTranscript = st.errTranscript ∧ st2.skipNext = st.skipNext - 1) ∨
    (st.skipNext = 0 ∧ st2.skipNext = 0 ∧ st2.errPrompt = st.errPrompt ∧
      st2.errTranscript = st.errTranscript ∧
      st2.correct + st2.added + st2.removed ≤ st.correct + st.added + st.removed + 1) ∨
    (st.skipNext = 0 ∧ ∃ j, 1 ≤ j ∧ i + j < dl.length ∧ st2.skipNext = j ∧
      st2.correct = st.correct ∧ st2.added + st2.removed = st.added + st.removed + 1 ∧
      st2.errPrompt.length = st.errPrompt.length + 1 ∧
      st2.errTranscript.length = st.errTranscript.length + 1) := by
  unfold gwcStep at h
  split at h
  · rename_i hskip
    cases h
    exact Or.inl ⟨hskip, rfl, rfl, rfl, rfl, rfl, rfl⟩
  · rename_i hskip
    have h0 : st.skipNext = 0 := by omega
    split at h
    · cases h
      exact Or.inr (Or.inl ⟨h0, h0, rfl, rfl, by omega⟩)
    · rename_i word hword
      split at h
      · cases h
      · rename_i c hC
        split at h
        · cases h
          refine Or.inr (Or.inl ⟨h0, h0, rfl, rfl, ?_⟩)
          simp
          omega
        · rename_i hsp
          split at h
          · rename_i hi2
            cases hsk : skipHints dl i 1 with
            | error e =>
              simp only [hsk] at h
              exact Except.noConfusion h
            | ok j =>
              simp only [hsk] at h
              cases hw2 : dl[i + j]? with
              | none =>
                simp only [hw2] at h
                exact Except.noConfusion h
              | some w2 =>
                simp only [hw2] at h
                cases hC2 : headChar w2 with
                | error e =>
                  simp only [hC2] at h
                  exact Except.noConfusion h
                | ok c2 =>
                  simp only [hC2] at h
                  have hjge : 1 ≤ j := skipHints_ge dl i 1 j hsk
                  have hbnd : i + j < dl.length := by
                    by_contra hh
                    rw [List.getElem?_eq_none (by omega)] at hw2
                    cases hw2
                  by_cases hpm : c = '+' ∧ c2 = '-'
                  · rw [if_pos hpm] at h
                    obtain ⟨hc, hc2⟩ := hpm
                    subst hc
                    cases h
                    refine Or.inr (Or.inr ⟨h0, j, hjge, hbnd, rfl, ?_, ?_, ?_, ?_⟩) <;>
                      · simp
                        try omega
                  · rw [if_neg hpm] at h
                    by_cases hmp : c = '-' ∧ c2 = '+'
                    · rw [if_pos hmp] at h
                      obtain ⟨hc, hc2⟩ := hmp
                      subst hc
                      cases h
                      have hcp : ('-' : Char) ≠ '+' := by decide
                      refine Or.inr (Or.inr ⟨h0, j, hjge, hbnd, rfl, ?_, ?_, ?_, ?_⟩) <;>
                        · simp [hcp]
                          try omega
                    · rw [if_neg hmp] at h
                      cases h
                      refine Or.inr (Or.inl ⟨h0, ?_, ?_, ?_, ?_⟩) <;>
                        split_ifs <;> simp <;> omega
          · cases h
            exact Or.inr (Or.inl ⟨h0, h0, rfl, rfl, by omega⟩)

end LitReading

namespace LitReading

theorem gwcLoop_invariant (dl : List String) : ∀ (rem : List String) (i : Nat)
    (st st3 : GwcState),
    i + rem.length = dl.length →
    gwcLoop dl rem i st = Except.ok st3 →
    st.correct + st.added + st.removed + st.errPrompt.length ≤
      i + (if st.skipNext = 0 then 0 else 1) →
    i + st.skipNext ≤ dl.length →
    st.errPrompt.length = st.errTranscript.length →
    st3.correct + st3.added + st3.removed + st3.errPrompt.length ≤ dl.length ∧
    st3.errPrompt.length = st3.errTranscript.length := by
  intro rem
  induction rem with
  | nil =>
    intro i st st3 hlen hloop hS hbound herr
    cases hloop
    constructor
    · split_ifs at hS <;> omega
    · exact herr
  | cons w rem ih =>
    intro i st st3 hlen hloop hS hbound herr
    have hlt : i < dl.length := by
      simp only [List.length_cons] at hlen
      omega
    unfold gwcLoop at hloop
    cases hstep : gwcStep dl i st with
    | error e =>
      simp only [hstep] at hloop
      exact Except.noConfusion hloop
    | ok st2 =>
      simp only [hstep] at hloop
      have hlen2 : (i + 1) + rem.length = dl.length := by
        simp only [List.length_cons] at hlen
        omega
      rcases gwcStep_delta dl i st st2 hstep with
        ⟨hsk, hc, ha, hr, hep, het, hsn⟩ | ⟨h0, hsn, hep, het, hsum⟩ |
        ⟨h0, j, hj1, hjb, hsn, hc, har, hep, het⟩
      · refine ih (i + 1) st2 st3 hlen2 hloop ?_ ?_ ?_
        · rw [hc, ha, hr, hep, hsn]
          split_ifs at hS ⊢ <;> omega
        · rw [hsn]
          omega
        · rw [hep, het]
          exact herr
      · refine ih (i + 1) st2 st3 hlen2 hloop ?_ ?_ ?_
        · rw [hep, hsn]
          split_ifs at hS ⊢ <;> omega
        · rw [hsn]
          omega
        · rw [hep, het]
          exact herr
      · refine ih (i + 1) st2 st3 hlen2 hloop ?_ ?_ ?_
        · rw [hep, hsn]
          split_ifs at hS ⊢ <;> omega
        · rw [hsn]
          omega
        · rw [hep, het]
          omega

theorem gwcLoop_all_match (dl : List String)
    (hall : ∀ w ∈ dl, w.data.head? = some ' ') : ∀ (rem : List String) (i : Nat)
    (st : GwcState),
    i + rem.length = dl.length → st.skipNext = 0 →
    gwcLoop dl rem i st =
      Except.ok { st with correct := st.correct + rem.length } := by
  intro rem
  induction rem with
  | nil =>
    intro i st hlen h0
    simp [gwcLoop]
  | cons w rem ih =>
    intro i st hlen h0
    have hlt : i < dl.length := by
      simp only [List.length_cons] at hlen
      omega
    have hw : dl[i]? = some dl[i] := List.getElem?_eq_getElem hlt
    have hmem : dl[i] ∈ dl := List.getElem_mem hlt
    unfold gwcLoop
    simp only [gwcStep_match dl i st (dl[i]) h0 hw (hall _ hmem)]
    rw [ih (i + 1) { st with correct := st.correct + 1 }
      (by simp only [List.length_cons] at hlen ⊢; omega) h0]
    have harith : st.correct + 1 + rem.length = st.correct + (w :: rem).length := by
      simp only [List.length_cons]
      omega
    simp only [harith]

end LitReading

namespace LitReading

theorem skipHints_step_stop (dl : List String) (i j : Nat) (h : i + j < dl.length)
    (c : Char) (cs : List Char) (hd : (dl[i + j]).data = c :: cs)
    (hq : c ≠ '?') : skipHints dl i j = Except.ok j := by
  unfold skipHints
  rw [List.drop_eq_getElem_cons h]
  simp [skipHintsGo, headChar, hd, hq]

theorem skipHints_step_hint (dl : List String) (i j : Nat) (h : i + j < dl.length)
    (cs : List Char) (hd : (dl[i + j]).data = '?' :: cs) :
    skipHints dl i j = skipHints dl i (j + 1) := by
  unfold skipHints
  rw [List.drop_eq_getElem_cons h]
  simp [skipHintsGo, headChar, hd]
  rw [Nat.add_assoc]

/-- Boolean check that no differ line tagged as a hint is immediately
followed by another hint line. -/
def noAdjacentHintsB : List String → Bool
  | [] => true
  | [_] => true
  | a :: b :: rest =>
    !(a.data.head? == some '?' && b.data.head? == some '?') &&
      noAdjacentHintsB (b :: rest)

/-- The precondition of claim C10: no differ line tagged as a hint is
immediately followed by another hint line. -/
def noAdjacentHints (dl : List String) : Prop := noAdjacentHintsB dl = true

instance (dl : List String) : Decidable (noAdjacentHints dl) :=
  inferInstanceAs (Decidable (noAdjacentHintsB dl = true))

/-- The Boolean adjacency check implies the chain form used in proofs. -/
theorem noAdjacentHints_chain (dl : List String) (h : noAdjacentHints dl) :
    List.Chain'
      (fun a b : String => ¬ (a.data.head? = some '?' ∧ b.data.head? = some '?'))
      dl := by
  induction dl with
  | nil => exact List.chain'_nil
  | cons a rest ih =>
    cases rest with
    | nil => exact List.chain'_singleton a
    | cons b rest2 =>
      unfold noAdjacentHints noAdjacentHintsB at h
      rw [Bool.and_eq_true, Bool.not_eq_true'] at h
      refine List.chain'_cons.mpr ⟨?_, ih h.2⟩
      intro hcontra
      rw [hcontra.1, hcontra.2] at h
      simp at h

theorem skipHints_twostep (dl : List String)
    (hwf : ∀ w ∈ dl, w.data ≠ []) (hchain : noAdjacentHints dl)
    (i : Nat) (hi : i + 2 < dl.length) :
    ∃ j, skipHints dl i 1 = Except.ok j ∧ 1 ≤ j ∧ i + j < dl.length := by
  have h1 : i + 1 < dl.length := by omega
  have hmem1 : dl[i + 1] ∈ dl := List.getElem_mem h1
  have hne1 : (dl[i + 1]).data ≠ [] := hwf _ hmem1
  obtain ⟨c1, cs1, hd1⟩ : ∃ c1 cs1, (dl[i + 1]).data = c1 :: cs1 := by
    cases hd : (dl[i + 1]).data with
    | nil => exact absurd hd hne1
    | cons c cs => exact ⟨c, cs, rfl⟩
  by_cases hq1 : c1 = '?'
  · subst hq1
    have h2 : i + 2 < dl.length := hi
    have hmem2 : dl[i + 2] ∈ dl := List.getElem_mem h2
    have hne2 : (dl[i + 2]).data ≠ [] := hwf _ hmem2
    obtain ⟨c2, cs2, hd2⟩ : ∃ c2 cs2, (dl[i + 2]).data = c2 :: cs2 := by
      cases hd : (dl[i + 2]).data with
      | nil => exact absurd hd hne2
      | cons c cs => exact ⟨c, cs, rfl⟩
    have hchainget := List.chain'_iff_get.mp (noAdjacentHints_chain dl hchain)
      (i + 1) (by omega)
    simp only [List.get_eq_getElem] at hchainget
    have hq2 : c2 ≠ '?' := by
      intro hq2
      apply hchainget
      constructor
      · rw [hd1]
        rfl
      · have heq : dl[i + 1 + 1] = dl[i + 2] := by
          congr 1
        rw [heq, hd2, hq2]
        rfl
    rw [skipHints_step_hint dl i 1 h1 cs1 hd1]
    rw [skipHints_step_stop dl i 2 h2 c2 cs2 hd2 hq2]
    exact ⟨2, rfl, by omega, h2⟩
  · rw [skipHints_step_stop dl i 1 h1 c1 cs1 hd1 hq1]
    exact ⟨1, rfl, le_refl 1, h1⟩

theorem gwcStep_total (dl : List String)
    (hwf : ∀ w ∈ dl, w.data ≠ []) (hchain : noAdjacentHints dl)
    (i : Nat) (st : GwcState) :
    ∃ st2, gwcStep dl i st = Except.ok st2 := by
  by_cases hsk : 0 < st.skipNext
  · exact ⟨_, gwcStep_skip dl i st hsk⟩
  · have h0 : st.skipNext = 0 := by omega
    cases hw : dl[i]? with
    | none => exact ⟨st, gwcStep_none dl i st h0 hw⟩
    | some w =>
      have hmem : w ∈ dl := by
        have := List.getElem?_eq_some.mp hw
        obtain ⟨hlt, hget⟩ := this
        rw [← hget]
        exact List.getElem_mem hlt
      have hwne : w.data ≠ [] := hwf w hmem
      obtain ⟨c, cs, hd⟩ : ∃ c cs, w.data = c :: cs := by
        cases hdd : w.data with
        | nil => exact absurd hdd hwne
        | cons c cs => exact ⟨c, cs, rfl⟩
      have hhead : w.data.head? = some c := by rw [hd]; rfl
      by_cases hc : c = ' '
      · subst hc
        exact ⟨_, gwcStep_match dl i st w h0 hw hhead⟩
      · by_cases hi2 : i + 2 < dl.length
        · obtain ⟨j, hsk2, hj1, hjb⟩ := skipHints_twostep dl hwf hchain i hi2
          have hw2 : dl[i + j]? = some dl[i + j] := List.getElem?_eq_getElem hjb
          have hmem2 : dl[i + j] ∈ dl := List.getElem_mem hjb
          have h2ne : (dl[i + j]).data ≠ [] := hwf _ hmem2
          obtain ⟨c2, cs2, hd2⟩ : ∃ c2 cs2, (dl[i + j]).data = c2 :: cs2 := by
            cases hdd : (dl[i + j]).data with
            | nil => exact absurd hdd h2ne
            | cons c2 cs2 => exact ⟨c2, cs2, rfl⟩
          have hhead2 : (dl[i + j]).data.head? = some c2 := by rw [hd2]; rfl
          by_cases hpm : c = '+' ∧ c2 = '-'
          · refine ⟨_, gwcStep_pair_pm dl i j st w (dl[i + j]) h0 hw ?_ hi2 hsk2 hw2 ?_⟩
            · rw [← hpm.1]
              exact hhead
            · rw [← hpm.2]
              exact hhead2
          · by_cases hmp : c = '-' ∧ c2 = '+'
            · refine ⟨_, gwcStep_pair_mp dl i j st w (dl[i + j]) h0 hw ?_ hi2 hsk2 hw2 ?_⟩
              · rw [← hmp.1]
                exact hhead
              · rw [← hmp.2]
                exact hhead2
            · exact ⟨_, gwcStep_single dl i j st w (dl[i + j]) c c2 h0 hw hhead hc hi2
                hsk2 hw2 hhead2 hpm hmp⟩
        · exact ⟨st, gwcStep_tail dl i st w c h0 hw hhead hc hi2⟩

theorem gwcLoop_total (dl : List String)
    (hwf : ∀ w ∈ dl, w.data ≠ []) (hchain : noAdjacentHints dl) :
    ∀ (rem : List String) (i : Nat) (st : GwcState),
    ∃ st3, gwcLoop dl rem i st = Except.ok st3 := by
  intro rem
  induction rem with
  | nil =>
    intro i st
    exact ⟨st, rfl⟩
  | cons w rem ih =>
    intro i st
    obtain ⟨st2, hstep⟩ := gwcStep_total dl hwf hchain i st
    unfold gwcLoop
    simp only [hstep]
    exact ih (i + 1) st2

end LitReading

namespace LitReading

/-- Claim C3: for every edit script and every index `i` in its boundary zone
(`i >= len(ops) - 2`), a non-Match op at position `i` contributes to none of
the counts correct/added/removed/replaced and produces no error pair: the
classification step leaves every counter and both error lists unchanged. -/
theorem claim_C3 (dl : List String) (i : Nat) (st : GwcState) (w : String) (c : Char)
    (hw : dl[i]? = some w) (hhead : w.data.head? = some c) (hc : c ≠ ' ')
    (hi : dl.length ≤ i + 2) :
    ∃ st2, gwcStep dl i st = Except.ok st2 ∧
      st2.correct = st.correct ∧ st2.added = st.added ∧ st2.removed = st.removed ∧
      st2.errPrompt = st.errPrompt ∧ st2.errTranscript = st.errTranscript := by
  by_cases hsk : 0 < st.skipNext
  · exact ⟨_, gwcStep_skip dl i st hsk, rfl, rfl, rfl, rfl, rfl⟩
  · have h0 : st.skipNext = 0 := by omega
    exact ⟨st, gwcStep_tail dl i st w c h0 hw hhead hc (by omega), rfl, rfl, rfl, rfl, rfl⟩

/-- Witness for C3: the Delete op at the last position of a two-line script is
silently ignored. -/
theorem claim_C3_witness :
    ∃ st2, gwcStep ["  a", "- b"] 1 initGwcState = Except.ok st2 ∧
      st2.correct = initGwcState.correct ∧ st2.added = initGwcState.added ∧
      st2.removed = initGwcState.removed ∧
      st2.errPrompt = initGwcState.errPrompt ∧
      st2.errTranscript = initGwcState.errTranscript :=
  claim_C3 ["  a", "- b"] 1 initGwcState "- b" '-' rfl rfl (by decide) (by decide)

/-- Claim C5: for every edit script on which classification succeeds, the
returned counts are the final state's counters (all natural numbers, hence
non-negative), `replaced` equals the length of the error-pair list, the
prompt-side and transcript-side error lists have equal length, and the four
counts sum to at most the script length. -/
theorem claim_C5 (dl : List String) (st : GwcState) (h : gwcRun dl = Except.ok st) :
    get_words_count dl = Except.ok (mkWordsCount st) ∧
    (mkWordsCount st).replaced = st.errPrompt.length ∧
    st.errPrompt.length = st.errTranscript.length ∧
    (mkWordsCount st).correct + (mkWordsCount st).added + (mkWordsCount st).removed +
      (mkWordsCount st).replaced ≤ dl.length := by
  have hloop : gwcLoop dl dl 0 initGwcState = Except.ok st := h
  have hinv := gwcLoop_invariant dl dl 0 initGwcState st (by omega) hloop
    (by simp [initGwcState]) (by simp [initGwcState]) rfl
  refine ⟨?_, rfl, hinv.2, hinv.1⟩
  unfold get_words_count
  rw [h]
  rfl

/-- Witness for C5 on a script with one replacement pair and two matches. -/
theorem claim_C5_witness :
    get_words_count ["- a", "+ b", "  c", "  d"] = Except.ok ⟨2, 0, 1, 1⟩ ∧
    (2 : Nat) + 0 + 1 + 1 ≤ 4 := by
  have hc5 := claim_C5 ["- a", "+ b", "  c", "  d"] ⟨2, 0, 1, ["a"], ["b"], 0⟩ rfl
  exact ⟨hc5.1, hc5.2.2.2⟩

/-- Claim C8: whenever at least one of the two compared inputs is not a
string, `longest_common_subsequence` raises its TypeError before any
alignment work, returning only the error and no partial result. -/
theorem claim_C8 (a b : PyObj) (h : a.isStr = false ∨ b.isStr = false) :
    longest_common_subsequence a b = Except.error PyErr.typeError := by
  cases a <;> cases b <;> simp [PyObj.isStr] at h <;> rfl

/-- Witness for C8: an integer first argument triggers the TypeError. -/
theorem claim_C8_witness :
    longest_common_subsequence (PyObj.int 3) (PyObj.str "a b") =
      Except.error PyErr.typeError :=
  claim_C8 (PyObj.int 3) (PyObj.str "a b") (Or.inl rfl)

/-- Claim C10: when every op line is non-empty and no two hint lines are
adjacent, the look-ahead stays in bounds and classification is total,
returning counts for every such script; and dropping the precondition, a
script ending in two consecutive hint lines after a non-Match op drives the
look-ahead out of bounds, raising IndexError. -/
theorem claim_C10 :
    (∀ dl : List String, (∀ w ∈ dl, w.data ≠ []) → noAdjacentHints dl →
      ∃ wc, get_words_count dl = Except.ok wc) ∧
    get_words_count ["- a", "? x", "? y"] = Except.error PyErr.indexError := by
  constructor
  · intro dl hwf hchain
    obtain ⟨st3, h⟩ := gwcLoop_total dl hwf hchain dl 0 initGwcState
    refine ⟨mkWordsCount st3, ?_⟩
    unfold get_words_count
    have hrun : gwcRun dl = Except.ok st3 := h
    rw [hrun]
    rfl
  · rfl

/-- Witness for C10: a hint-free script is classified without error. -/
theorem claim_C10_witness :
    ∃ wc, get_words_count ["- a", "+ b", "  c", "  d"] = Except.ok wc :=
  claim_C10.1 ["- a", "+ b", "  c", "  d"] (by decide) (by decide)

end LitReading

namespace LitReading

theorem popLoopRev_ok (t : Char) (l : List String)
    (hwf : ∀ w ∈ l, w.data ≠ [])
    (hex : ∃ w ∈ l, w.data.head? ≠ some t) :
    popLoopRev t l =
      Except.ok (l.dropWhile (fun w => w.data.head? == some t)) ∧
    l.dropWhile (fun w => w.data.head? == some t) ≠ [] := by
  induction l with
  | nil =>
    obtain ⟨w, hw, _⟩ := hex
    simp at hw
  | cons w rest ih =>
    have hwne : w.data ≠ [] := hwf w (List.mem_cons_self _ _)
    obtain ⟨c, cs, hdata⟩ : ∃ c cs, w.data = c :: cs := by
      cases hd : w.data with
      | nil => exact absurd hd hwne
      | cons c cs => exact ⟨c, cs, rfl⟩
    by_cases hct : c = t
    · subst hct
      have hpred : w.data.head? = some c := by rw [hdata]; rfl
      have hstep : popLoopRev c (w :: rest) = popLoopRev c rest := by
        simp [popLoopRev, headChar, hdata]
      have hdrop :
          (w :: rest).dropWhile (fun v => v.data.head? == some c) =
            rest.dropWhile (fun v => v.data.head? == some c) := by
        simp [List.dropWhile_cons, hpred]
      obtain ⟨v, hv, hvt⟩ := hex
      rcases List.mem_cons.mp hv with h | h
      · subst h
        exact absurd hpred hvt
      · have := ih (fun x hx => hwf x (List.mem_cons_of_mem _ hx)) ⟨v, h, hvt⟩
        rw [hstep, hdrop]
        exact this
    · have hpred : (w.data.head? == some t) = false := by
        rw [hdata]
        simp [hct]
      constructor
      · simp [popLoopRev, headChar, hdata, hct, List.dropWhile_cons, hpred]
      · simp [List.dropWhile_cons, hpred]

/-- Claim C4: for every pair of string inputs, the aligner succeeds; if the
built edit script ends in a Match line it is returned unchanged, and
otherwise exactly the maximal trailing run of lines sharing the last line's
tag is removed (the script decomposes as the returned prefix followed by
that trailing run, every removed line carries that same non-Match tag, so no
Match line is removed), and the returned script is non-empty. -/
theorem claim_C4 (sa sb : String) (w : String) (t : Char)
    (hlast : (differ (pySplit sa) (pySplit sb)).getLast? = some w)
    (ht : w.data.head? = some t) :
    ∃ ls, longest_common_subsequence (PyObj.str sa) (PyObj.str sb) = Except.ok ls ∧
      ls ≠ [] ∧
      (t = ' ' → ls = differ (pySplit sa) (pySplit sb)) ∧
      (t ≠ ' ' →
        ls = ((differ (pySplit sa) (pySplit sb)).reverse.dropWhile
          (fun v => v.data.head? == some t)).reverse ∧
        differ (pySplit sa) (pySplit sb) =
          ls ++ ((differ (pySplit sa) (pySplit sb)).reverse.takeWhile
            (fun v => v.data.head? == some t)).reverse ∧
        (∀ v ∈ (differ (pySplit sa) (pySplit sb)).reverse.takeWhile
            (fun v => v.data.head? == some t),
          v.data.head? = some t ∧ v.data.head? ≠ some ' ')) := by
  set A := pySplit sa with hA
  set B := pySplit sb with hB
  set dl := differ A B with hdl
  have hAne : A ≠ [] := pySplitOn_ne_nil ' ' sa
  have hBne : B ≠ [] := pySplitOn_ne_nil ' ' sb
  have hmemw : w ∈ dl := List.mem_of_mem_getLast? hlast
  have htags := differ_tags A B
  have hwf : ∀ v ∈ dl, v.data ≠ [] := by
    intro v hv
    rcases htags v hv with h | h | h <;>
      · intro hnil
        rw [hnil] at h
        simp at h
  obtain ⟨cs, hdata⟩ : ∃ cs, w.data = t :: cs := by
    cases hd : w.data with
    | nil =>
      rw [hd] at ht
      simp at ht
    | cons c cs =>
      rw [hd] at ht
      simp at ht
      exact ⟨cs, by rw [ht]⟩
  have hlcs : longest_common_subsequence (PyObj.str sa) (PyObj.str sb) = trimDiff dl := rfl
  by_cases hsp : t = ' '
  · refine ⟨dl, ?_, ?_, fun _ => rfl, fun hne => absurd hsp hne⟩
    · rw [hlcs]
      unfold trimDiff
      rw [hlast]
      simp [headChar, hdata, hsp]
    · intro hnil
      rw [hnil] at hmemw
      simp at hmemw
  · have htw : t = '-' ∨ t = '+' := by
      rcases htags w hmemw with h | h | h
      · rw [hdata] at h
        simp at h
        exact absurd h hsp
      · rw [hdata] at h
        simp at h
        exact Or.inl h
      · rw [hdata] at h
        simp at h
        exact Or.inr h
    have hex : ∃ v ∈ dl.reverse, v.data.head? ≠ some t := by
      rcases htw with h | h
      · obtain ⟨v, hv, hvt⟩ := differ_right_mem A B hBne
        refine ⟨v, List.mem_reverse.mpr hv, ?_⟩
        rcases hvt with hvt | hvt <;> rw [hvt] <;> simp [h]
      · obtain ⟨v, hv, hvt⟩ := differ_left_mem A B hAne
        refine ⟨v, List.mem_reverse.mpr hv, ?_⟩
        rcases hvt with hvt | hvt <;> rw [hvt] <;> simp [h]
    have hwfr : ∀ v ∈ dl.reverse, v.data ≠ [] := by
      intro v hv
      exact hwf v (List.mem_reverse.mp hv)
    obtain ⟨hpop, hne⟩ := popLoopRev_ok t dl.reverse hwfr hex
    refine ⟨(dl.reverse.dropWhile (fun v => v.data.head? == some t)).reverse, ?_, ?_,
      fun hsp2 => absurd hsp2 hsp, fun _ => ⟨rfl, ?_, ?_⟩⟩
    · rw [hlcs]
      unfold trimDiff
      rw [hlast]
      simp only [headChar, hdata]
      rw [if_neg hsp]
      rw [hpop]
    · simpa using hne
    · conv_lhs => rw [← List.reverse_reverse dl]
      conv_lhs =>
        rw [← List.takeWhile_append_dropWhile (fun v => v.data.head? == some t)
          dl.reverse]
      rw [List.reverse_append]
    · intro v hv
      have hp := List.mem_takeWhile_imp hv
      simp at hp
      refine ⟨hp, ?_⟩
      rw [hp]
      simp
      intro hts
      exact hsp hts

/-- Witness for C4: aligning a three-token prompt against its two-token
prefix trims the trailing Delete line and returns a non-empty script. -/
theorem claim_C4_witness :
    ∃ ls, longest_common_subsequence (PyObj.str "a b c") (PyObj.str "a b") =
      Except.ok ls ∧ ls ≠ [] := by
  obtain ⟨ls, h1, h2, h3⟩ := claim_C4 "a b c" "a b" "- c" '-' rfl rfl
  exact ⟨ls, h1, h2⟩

end LitReading

namespace LitReading

set_option linter.unusedVariables false in
/-- Claim C6: aligning any prompt of at least three tokens against an
identical transcript yields an all-Match script returned untrimmed, and
classification counts every token as correct with no additions, removals or
replacements. -/
theorem claim_C6 (s : String) (h3 : 3 ≤ (pySplit s).length) :
    longest_common_subsequence (PyObj.str s) (PyObj.str s) =
      Except.ok ((pySplit s).map (fun w => "  " ++ w)) ∧
    get_words_count ((pySplit s).map (fun w => "  " ++ w)) =
      Except.ok ⟨(pySplit s).length, 0, 0, 0⟩ := by
  have hAne : pySplit s ≠ [] := pySplitOn_ne_nil ' ' s
  have hall : ∀ w ∈ (pySplit s).map (fun w => "  " ++ w),
      w.data.head? = some ' ' := by
    intro w hw
    obtain ⟨a, ha, rfl⟩ := List.mem_map.mp hw
    exact head_data_match a
  constructor
  · have hlcs : longest_common_subsequence (PyObj.str s) (PyObj.str s) =
        trimDiff (differ (pySplit s) (pySplit s)) := rfl
    rw [hlcs, differ_self]
    obtain ⟨last, hlast⟩ : ∃ x, (pySplit s).getLast? = some x := by
      cases hx : (pySplit s).getLast? with
      | none => exact absurd (List.getLast?_eq_none_iff.mp hx) hAne
      | some x => exact ⟨x, rfl⟩
    have hlast2 : ((pySplit s).map (fun w => "  " ++ w)).getLast? =
        some ("  " ++ last) := by
      rw [List.getLast?_map, hlast]
      rfl
    obtain ⟨cs, hdd⟩ : ∃ cs, ("  " ++ last).data = ' ' :: cs := by
      have hh := head_data_match last
      cases hd : (("  " : String) ++ last).data with
      | nil =>
        rw [hd] at hh
        simp at hh
      | cons c cs =>
        rw [hd] at hh
        simp at hh
        exact ⟨cs, by rw [hh]⟩
    unfold trimDiff
    rw [hlast2]
    simp [headChar, hdd]
  · have hrun : gwcRun ((pySplit s).map (fun w => "  " ++ w)) =
        Except.ok { initGwcState with
          correct := initGwcState.correct +
            ((pySplit s).map (fun w => "  " ++ w)).length } := by
      unfold gwcRun
      exact gwcLoop_all_match _ hall _ 0 initGwcState (by omega) rfl
    unfold get_words_count
    rw [hrun]
    simp [mkWordsCount, initGwcState, Except.map]

/-- Witness for C6 at a three-token prompt. -/
theorem claim_C6_witness :
    longest_common_subsequence (PyObj.str "a b c") (PyObj.str "a b c") =
      Except.ok ["  a", "  b", "  c"] ∧
    get_words_count ["  a", "  b", "  c"] = Except.ok ⟨3, 0, 0, 0⟩ := by
  have h := claim_C6 "a b c" (by decide)
  exact ⟨h.1, h.2⟩

/-- Claim C7: for a record of duration 60 seconds, every per-minute rate
feature equals its raw count: the duration is divided by 60 to one minute, so
the division leaves each count unchanged. -/
theorem claim_C7 (prompt asr : String) (dl : List String) (wc : WordsCount)
    (hdl : longest_common_subsequence (PyObj.str prompt) (PyObj.str asr) = Except.ok dl)
    (hwc : get_words_count dl = Except.ok wc) :
    ∃ f, compute_numerical_features prompt asr 60 = Except.ok f ∧
      f.correct_words_pm = (wc.correct : ℚ) ∧
      f.added_words_pm = (wc.added : ℚ) ∧
      f.removed_words_pm = (wc.removed : ℚ) ∧
      f.replaced_words_pm = (wc.replaced : ℚ) ∧
      f.asr_word_count_pm = ((pySplitWs asr).length : ℚ) := by
  refine ⟨mkFeatures wc (pySplitWs asr).length prompt asr 60, ?_, ?_, ?_, ?_, ?_, ?_⟩
  · unfold compute_numerical_features
    simp only [hdl, hwc]
  · show (wc.correct : ℚ) / ((60 : ℚ) / 60) = (wc.correct : ℚ)
    norm_num
  · show (wc.added : ℚ) / ((60 : ℚ) / 60) = (wc.added : ℚ)
    norm_num
  · show (wc.removed : ℚ) / ((60 : ℚ) / 60) = (wc.removed : ℚ)
    norm_num
  · show (wc.replaced : ℚ) / ((60 : ℚ) / 60) = (wc.replaced : ℚ)
    norm_num
  · show (((pySplitWs asr).length : Nat) : ℚ) / ((60 : ℚ) / 60) =
      (((pySplitWs asr).length : Nat) : ℚ)
    norm_num

/-- Witness for C7 on a matching three-token record at 60 seconds. -/
theorem claim_C7_witness :
    ∃ f, compute_numerical_features "a b c" "a b c" 60 = Except.ok f ∧
      f.correct_words_pm = ((3 : Nat) : ℚ) ∧
      f.added_words_pm = ((0 : Nat) : ℚ) ∧
      f.removed_words_pm = ((0 : Nat) : ℚ) ∧
      f.replaced_words_pm = ((0 : Nat) : ℚ) ∧
      f.asr_word_count_pm = ((3 : Nat) : ℚ) := by
  have h := claim_C7 "a b c" "a b c" ["  a", "  b", "  c"] ⟨3, 0, 0, 0⟩ rfl rfl
  exact h

/-- Claim C9: the word-length statistics return mean 0 and standard
deviation 0 on the empty input string (without raising an error: the
function is total), and mean 3 and standard deviation 0 on a single token of
length 3. -/
theorem claim_C9 :
    get_words_length_stats "" = ((0 : ℚ), (0 : ℝ)) ∧
    get_words_length_stats "abc" = ((3 : ℚ), (0 : ℝ)) := by
  constructor
  · unfold get_words_length_stats
    have h1 : pySplitOn ' ' "" = [""] := rfl
    rw [h1]
    norm_num [npMean, npVar, npStd]
  · unfold get_words_length_stats
    have h1 : pySplitOn ' ' "abc" = ["abc"] := rfl
    rw [h1]
    norm_num [npMean, npVar, npStd, show "abc".length = 3 from rfl]

end LitReading

namespace LitReading

/-- Evaluation of the spec's concrete scenario 2 through the embedded
pipeline: reference "a b c d e f g h" against hypothesis "a b x d e f g h"
at 60 seconds gives correct 7, added 0, removed 1 and replaced 1. -/
theorem scenario2_eval :
    compute_numerical_features "a b c d e f g h" "a b x d e f g h" 60 =
      Except.ok (mkFeatures ⟨7, 0, 1, 1⟩ 8 "a b c d e f g h" "a b x d e f g h" 60) := by
  have h1 : longest_common_subsequence (PyObj.str "a b c d e f g h")
      (PyObj.str "a b x d e f g h") =
      Except.ok ["  a", "  b", "- c", "+ x", "  d", "  e", "  f", "  g", "  h"] := rfl
  have h2 : get_words_count ["  a", "  b", "- c", "+ x", "  d", "  e", "  f",
      "  g", "  h"] = Except.ok ⟨7, 0, 1, 1⟩ := rfl
  unfold compute_numerical_features
  simp only [h1, h2]
  rfl

/-- Rate projections of the scenario 2 feature row. -/
theorem scenario2_rates :
    (compute_numerical_features "a b c d e f g h" "a b x d e f g h" 60).toOption.map
      (fun f => (f.correct_words_pm, f.added_words_pm, f.removed_words_pm,
        f.replaced_words_pm)) = some ((7 : ℚ), (0 : ℚ), (1 : ℚ), (1 : ℚ)) := by
  rw [scenario2_eval]
  show some (((7 : Nat) : ℚ) / ((60 : ℚ) / 60), ((0 : Nat) : ℚ) / ((60 : ℚ) / 60),
    ((1 : Nat) : ℚ) / ((60 : ℚ) / 60), ((1 : Nat) : ℚ) / ((60 : ℚ) / 60)) =
    some ((7 : ℚ), (0 : ℚ), (1 : ℚ), (1 : ℚ))
  norm_num

/-- Counterexample to claim C1 as stated: in the spec's concrete scenario 2
the code produces removed = 1 (together with replaced = 1), not
removed = 0 — the leading Delete op of the substitution pair is also counted
as removed. -/
theorem claim_C1_counterexample :
    (compute_numerical_features "a b c d e f g h" "a b x d e f g h" 60).toOption.map
      (fun f => (f.correct_words_pm, f.added_words_pm, f.removed_words_pm,
        f.replaced_words_pm)) = some ((7 : ℚ), (0 : ℚ), (1 : ℚ), (1 : ℚ)) ∧
    (compute_numerical_features "a b c d e f g h" "a b x d e f g h" 60).toOption.map
      (fun f => f.removed_words_pm) ≠ some (0 : ℚ) := by
  refine ⟨scenario2_rates, ?_⟩
  rw [scenario2_eval]
  show ¬ (some (((1 : Nat) : ℚ) / ((60 : ℚ) / 60)) = some (0 : ℚ))
  norm_num

/-- Claim C1 as amended: at every substitution pair (Insert looked ahead to
Delete, or Delete looked ahead to Insert, hints skipped) the classifier
records the pair exactly once as a replacement AND additionally counts the
leading op as added (if Insert) or removed (if Delete); the trailing op of
the pair is consumed by the skip counter and never counted. In scenario 2
this gives correct 7, added 0, removed 1, replaced 1. -/
theorem claim_C1 (dl : List String) (i j : Nat) (st : GwcState) (w w2 : String)
    (c c2 : Char)
    (h0 : st.skipNext = 0) (hw : dl[i]? = some w) (hhead : w.data.head? = some c)
    (hi : i + 2 < dl.length) (hj : skipHints dl i 1 = Except.ok j)
    (hw2 : dl[i + j]? = some w2) (hhead2 : w2.data.head? = some c2)
    (hpair : (c = '+' ∧ c2 = '-') ∨ (c = '-' ∧ c2 = '+')) :
    (∃ st2, gwcStep dl i st = Except.ok st2 ∧
      st2.errPrompt.length = st.errPrompt.length + 1 ∧
      st2.errTranscript.length = st.errTranscript.length + 1 ∧
      st2.added + st2.removed = st.added + st.removed + 1 ∧
      st2.correct = st.correct ∧
      st2.skipNext = j ∧
      (c = '+' → st2.added = st.added + 1 ∧ st2.removed = st.removed) ∧
      (c = '-' → st2.removed = st.removed + 1 ∧ st2.added = st.added)) ∧
    (compute_numerical_features "a b c d e f g h" "a b x d e f g h" 60).toOption.map
      (fun f => (f.correct_words_pm, f.added_words_pm, f.removed_words_pm,
        f.replaced_words_pm)) = some ((7 : ℚ), (0 : ℚ), (1 : ℚ), (1 : ℚ)) := by
  refine ⟨?_, scenario2_rates⟩
  rcases hpair with ⟨hc, hc2⟩ | ⟨hc, hc2⟩
  · subst hc
    subst hc2
    refine ⟨_, gwcStep_pair_pm dl i j st w w2 h0 hw hhead hi hj hw2 hhead2,
      ?_, ?_, ?_, ?_, ?_, ?_, ?_⟩
    · simp
    · simp
    · simp
      omega
    · rfl
    · rfl
    · intro _
      exact ⟨rfl, rfl⟩
    · intro hcontra
      simp at hcontra
  · subst hc
    subst hc2
    refine ⟨_, gwcStep_pair_mp dl i j st w w2 h0 hw hhead hi hj hw2 hhead2,
      ?_, ?_, ?_, ?_, ?_, ?_, ?_⟩
    · simp
    · simp
    · simp
      omega
    · rfl
    · rfl
    · intro hcontra
      simp at hcontra
    · intro _
      exact ⟨rfl, rfl⟩

/-- Witness for the amended C1 at a Delete-then-Insert pair at position 0. -/
theorem claim_C1_witness :
    (∃ st2, gwcStep ["- c", "+ x", "  d", "  e"] 0 initGwcState = Except.ok st2 ∧
      st2.errPrompt.length = initGwcState.errPrompt.length + 1 ∧
      st2.errTranscript.length = initGwcState.errTranscript.length + 1 ∧
      st2.added + st2.removed = initGwcState.added + initGwcState.removed + 1 ∧
      st2.correct = initGwcState.correct ∧
      st2.skipNext = 1 ∧
      ('-' = '+' → st2.added = initGwcState.added + 1 ∧
        st2.removed = initGwcState.removed) ∧
      ('-' = '-' → st2.removed = initGwcState.removed + 1 ∧
        st2.added = initGwcState.added)) ∧
    (compute_numerical_features "a b c d e f g h" "a b x d e f g h" 60).toOption.map
      (fun f => (f.correct_words_pm, f.added_words_pm, f.removed_words_pm,
        f.replaced_words_pm)) = some ((7 : ℚ), (0 : ℚ), (1 : ℚ), (1 : ℚ)) :=
  claim_C1 ["- c", "+ x", "  d", "  e"] 0 1 initGwcState "- c" "+ x" '-' '+'
    rfl rfl rfl (by decide) rfl rfl rfl (Or.inr ⟨rfl, rfl⟩)

/-- Counterexample to claim C2 as stated: on the script with an Insert
followed by a Delete, the recorded pair stores the Insert's token "x" (a
hypothesis-side token) in the reference position: the reference-side tokens
of the script are exactly ["c"], and "x" is not among them. -/
theorem claim_C2_counterexample :
    gwcRun ["+ x", "- c", "  d", "  e"] =
      Except.ok ⟨2, 1, 0, ["x"], ["c"], 0⟩ ∧
    refTokens ["+ x", "- c", "  d", "  e"] = ["c"] ∧
    ("x" : String) ∉ refTokens ["+ x", "- c", "  d", "  e"] := by
  refine ⟨rfl, rfl, ?_⟩
  intro hmem
  rw [show refTokens ["+ x", "- c", "  d", "  e"] = ["c"] from rfl] at hmem
  simp at hmem

/-- Claim C2 as amended: the recorded pair stores the token of the
first-encountered op of the pair in the first (reference) position and the
token of the looked-ahead op in the second (hypothesis) position — so when
the Delete comes first the reference token is indeed first, but when the
Insert comes first the hypothesis token lands in the reference position. -/
theorem claim_C2 (dl : List String) (i j : Nat) (st : GwcState) (w w2 : String)
    (c c2 : Char)
    (h0 : st.skipNext = 0) (hw : dl[i]? = some w) (hhead : w.data.head? = some c)
    (hi : i + 2 < dl.length) (hj : skipHints dl i 1 = Except.ok j)
    (hw2 : dl[i + j]? = some w2) (hhead2 : w2.data.head? = some c2)
    (hpair : (c = '+' ∧ c2 = '-') ∨ (c = '-' ∧ c2 = '+')) :
    ∃ st2, gwcStep dl i st = Except.ok st2 ∧
      (c = '+' → st2.errPrompt = st.errPrompt ++ [pyReplace w "+ " ""] ∧
        st2.errTranscript = st.errTranscript ++ [pyReplace w2 "- " ""]) ∧
      (c = '-' → st2.errPrompt = st.errPrompt ++ [pyReplace w "- " ""] ∧
        st2.errTranscript = st.errTranscript ++ [pyReplace w2 "+ " ""]) := by
  rcases hpair with ⟨hc, hc2⟩ | ⟨hc, hc2⟩
  · subst hc
    subst hc2
    refine ⟨_, gwcStep_pair_pm dl i j st w w2 h0 hw hhead hi hj hw2 hhead2, ?_, ?_⟩
    · intro _
      exact ⟨rfl, rfl⟩
    · intro hcontra
      simp at hcontra
  · subst hc
    subst hc2
    refine ⟨_, gwcStep_pair_mp dl i j st w w2 h0 hw hhead hi hj hw2 hhead2, ?_, ?_⟩
    · intro hcontra
      simp at hcontra
    · intro _
      exact ⟨rfl, rfl⟩

/-- Witness for the amended C2 at an Insert-then-Delete pair at position 0:
the Insert token is stripped into the reference slot. -/
theorem claim_C2_witness :
    ∃ st2, gwcStep ["+ x", "- c", "  d", "  e"] 0 initGwcState = Except.ok st2 ∧
      (('+' : Char) = '+' → st2.errPrompt = initGwcState.errPrompt ++
          [pyReplace "+ x" "+ " ""] ∧
        st2.errTranscript = initGwcState.errTranscript ++
          [pyReplace "- c" "- " ""]) ∧
      (('+' : Char) = '-' → st2.errPrompt = initGwcState.errPrompt ++
          [pyReplace "+ x" "- " ""] ∧
        st2.errTranscript = initGwcState.errTranscript ++
          [pyReplace "- c" "+ " ""]) :=
  claim_C2 ["+ x", "- c", "  d", "  e"] 0 1 initGwcState "+ x" "- c" '+' '-'
    rfl rfl rfl (by decide) rfl rfl rfl (Or.inl ⟨rfl, rfl⟩)

end LitReading
